import Mathlib

/-!
Verification of the Pitztal Ice News Monitor (src/monitor_news.py).

The Python functions are shallowly embedded as executable Lean
definitions.  Python strings are modelled as Lean `String`
(a structure around a list of unicode characters), the dictionaries
holding extracted news entries as structures, and the external
capabilities (translation backend, message transport) as function
parameters.  All definitions come first, followed by the supporting
lemmas and the claim theorems.
-/

namespace IceNews

/-! ## String helpers: embeddings of the Python string primitives used
by monitor_news.py -/

/-- Embedding of Python string join, `sep.join(parts)`. -/
def pyJoin (sep : String) : List String → String
  | [] => ""
  | [x] => x
  | x :: y :: xs => x ++ sep ++ pyJoin sep (y :: xs)

/-- The same join at the level of character lists. -/
def joinCh (sep : List Char) : List (List Char) → List Char
  | [] => []
  | [x] => x
  | x :: y :: xs => x ++ sep ++ joinCh sep (y :: xs)

/-- Prepend a character to the first group of a group list. -/
def consHead (c : Char) : List (List Char) → List (List Char)
  | [] => [[c]]
  | g :: gs => (c :: g) :: gs

/-- Splitting a character list at newline characters: the character
level embedding of the Python single-newline split used in
`_split_message_into_chunks` (line 318 of monitor_news.py). -/
def splitNlData : List Char → List (List Char)
  | [] => [[]]
  | c :: rest =>
      if c = '\n' then [] :: splitNlData rest
      else consHead c (splitNlData rest)

/-- Splitting at blank-line separators (two consecutive newlines,
scanned left to right without overlap): the character level embedding
of the Python double-newline split used in `translate_long_text`
(line 251 of monitor_news.py). -/
def splitPPData : List Char → List (List Char)
  | [] => [[]]
  | [c] => [[c]]
  | c1 :: c2 :: rest =>
      if c1 = '\n' ∧ c2 = '\n' then [] :: splitPPData rest
      else consHead c1 (splitPPData (c2 :: rest))

/-- Embedding of Python `message.split` at a single newline. -/
def pySplitNl (s : String) : List String := (splitNlData s.data).map String.mk

/-- Embedding of Python `text.split` at a blank line. -/
def pySplitPP (s : String) : List String := (splitPPData s.data).map String.mk

/-- Whitespace set of Python `str.strip` (restricted to the ASCII
whitespace characters; none of the strings built by the program
contain other unicode whitespace). -/
def pyIsSpace (c : Char) : Bool :=
  c == ' ' || c == '\t' || c == '\n' || c == '\r' || c == '\x0B' || c == '\x0C'

/-- Embedding of Python `s.strip()`. -/
def pyStrip (s : String) : String :=
  String.mk (((s.data.dropWhile pyIsSpace).reverse.dropWhile pyIsSpace).reverse)

/-- Character-wise form of Python `html.escape(s)` (quote=True).  The
Python implementation performs sequential global replacements starting
with the ampersand, which is equivalent to this single character map
because no replacement string contains a character replaced later. -/
def escChar (c : Char) : List Char :=
  if c = '&' then "&amp;".data
  else if c = '<' then "&lt;".data
  else if c = '>' then "&gt;".data
  else if c = '"' then "&quot;".data
  else if c = Char.ofNat 39 then "&#x27;".data
  else [c]

/-- Embedding of Python `html.escape(s)` with quoting enabled. -/
def htmlEscape (s : String) : String := String.mk ((s.data.map escChar).flatten)

/-- Drop the first `n` characters of a string. -/
def dropChars (n : Nat) (s : String) : String := String.mk (s.data.drop n)

/-! ## Greedy packing loop

Both `translate_long_text` and `_split_message_into_chunks` run the
same greedy accumulation loop over a list of pieces, differing only in
how a piece is weighed: `cw` is the weight added in the overflow test,
`aw` the weight added to the running size when a piece is appended to
the current chunk, and `rw` the running size restarted after a flush.
The Python loop `for piece in pieces: if current_size + cw piece >
limit and current_chunk: flush else append` followed by a final
non-empty flush is transcribed verbatim. -/
def genPack (cw aw rw : String → Nat) (limit : Nat) :
    List String → List String → Nat → List (List String)
  | [], cur, _ => if cur = [] then [] else [cur]
  | x :: xs, cur, n =>
      if limit < n + cw x ∧ cur ≠ [] then
        cur :: genPack cw aw rw limit xs [x] (rw x)
      else
        genPack cw aw rw limit xs (cur ++ [x]) (n + aw x)

/-- Sum of the weights of a chunk's pieces. -/
def wsum (w : String → Nat) (g : List String) : Nat := (g.map w).sum

/-! ## Change detector (monitor_news.py lines 205-209)

A last-seen record is a JSON mapping whose `title` and `snippet` keys
may be absent; Python `dict.get` yields `None` for an absent key,
modelled by `Option.none`. -/

structure SeenRec where
  title : Option String := none
  snippet : Option String := none
deriving DecidableEq

/-- Embedding of `is_new(item, last_seen)`: field-wise inequality of
the `title` and `snippet` values as returned by `dict.get`. -/
def is_new (item lastSeen : SeenRec) : Bool :=
  item.title != lastSeen.title || item.snippet != lastSeen.snippet

/-- A news entry produced by the extractor: these dictionaries always
carry all three keys. -/
structure Entry where
  title : String
  snippet : String
  link : String
deriving DecidableEq

/-- View of an extracted entry as a last-seen style mapping (all keys
present). -/
def Entry.toSeen (e : Entry) : SeenRec := ⟨some e.title, some e.snippet⟩

/-! ## Translation (monitor_news.py lines 216-271)

The Google translation backend is a capability parameter returning
either a translated value (Python may return `None`, hence
`Option String`) or one of the four caught exception classes. -/

inductive TrOutcome where
  | ok : Option String → TrOutcome
  | notFound : TrOutcome
  | tooMany : TrOutcome
  | requestFailed : TrOutcome
  | unexpectedFailure : TrOutcome
deriving DecidableEq

/-- Whether a backend outcome is one of the failure cases. -/
def TrOutcome.isErr : TrOutcome → Bool
  | .ok _ => false
  | _ => true

/-- Embedding of `translate_to_english(text)`: empty input is returned
unchanged without consulting the backend; a falsy translation result
(`None` or the empty string, Python `translated or text`) and every
caught exception fall back to the input text. -/
def translate_to_english (backend : String → TrOutcome) (text : String) : String :=
  if text = "" then text
  else
    match backend text with
    | .ok (some t) => if t = "" then text else t
    | .ok none => text
    | .notFound => text
    | .tooMany => text
    | .requestFailed => text
    | .unexpectedFailure => text

/-- The paragraph-packing loop of `translate_long_text` (lines
251-265): overflow test adds `len(para)`, appending adds
`len(para) + 2`, and after a flush the size restarts at `len(para)`. -/
def packParagraphs (limit : Nat) (paras : List String) : List (List String) :=
  genPack (fun p => p.length) (fun p => p.length + 2) (fun p => p.length) limit paras [] 0

/-- The chunk texts passed to `translate_to_english` by
`translate_long_text`, in call order: each flushed group joined with a
blank line. -/
def tltChunks (text : String) (maxChunkSize : Nat) : List String :=
  (packParagraphs maxChunkSize (pySplitPP text)).map (pyJoin "\n\n")

/-- Embedding of `translate_long_text(text, max_chunk_size)`.  The
source translates each chunk at the moment it is flushed and joins the
translations with blank lines; since the translator is a pure
capability in this model, that equals mapping the translator over the
flushed chunk list. -/
def translate_long_text (tr : String → String) (text : String) (maxChunkSize : Nat) : String :=
  if text = "" then text
  else if text.length ≤ maxChunkSize then tr text
  else pyJoin "\n\n" ((tltChunks text maxChunkSize).map tr)

/-- The list of texts `translate_long_text` passes to
`translate_to_english`, in call order (empty input returns before any
call; short input is translated in one call; long input once per
flushed chunk). -/
def translate_long_text_calls (text : String) (maxChunkSize : Nat) : List String :=
  if text = "" then []
  else if text.length ≤ maxChunkSize then [text]
  else tltChunks text maxChunkSize

/-- Number of translation calls made by `translate_long_text`. -/
def tltCallCount (text : String) (maxChunkSize : Nat) : Nat :=
  (translate_long_text_calls text maxChunkSize).length

/-! ## Delivery segmenter (monitor_news.py lines 309-339) -/

/-- Weight of one line in the message packing loop: `len(line) + 1`. -/
def lineWeight (l : String) : Nat := l.length + 1

/-- The line-packing loop of `_split_message_into_chunks` (lines
322-333). -/
def packMsgLines (message : String) (maxLength : Nat) : List (List String) :=
  genPack lineWeight lineWeight lineWeight maxLength (pySplitNl message) [] 0

/-- The chunk bodies before continuation headers are prepended. -/
def msgCoreChunks (message : String) (maxLength : Nat) : List String :=
  (packMsgLines message maxLength).map (pyJoin "\n")

/-- The continuation header placed on chunk number `n` (1-based):
Python f-string at line 336. -/
def chunkHeader (title : String) (n : Nat) : String :=
  "<b>" ++ htmlEscape title ++ " - part " ++ Nat.repr n ++ "</b>\n\n"

/-- Prefix every chunk of the list with its continuation header, the
first element receiving part number `k`. -/
def addHeadersFrom (title : String) : Nat → List String → List String
  | _, [] => []
  | k, c :: cs => (chunkHeader title k ++ c) :: addHeadersFrom title (k + 1) cs

/-- The header loop of lines 335-337: chunk index 0 is left as is,
chunk index `i ≥ 1` is prefixed with the header for part `i + 1`. -/
def addHeaders (title : String) : List String → List String
  | [] => []
  | c :: cs => c :: addHeadersFrom title 2 cs

/-- Embedding of `_split_message_into_chunks(message, title,
max_length)`. -/
def _split_message_into_chunks (message title : String) (maxLength : Nat) : List String :=
  if message.length ≤ maxLength then [message]
  else addHeaders title (msgCoreChunks message maxLength)

/-- Drop the continuation header from every chunk of a list, the first
element of the list carrying part number `k`. -/
def stripContFrom (title : String) : Nat → List String → List String
  | _, [] => []
  | k, c :: cs => dropChars (chunkHeader title k).length c :: stripContFrom title (k + 1) cs

/-- Remove the continuation header (the bold header line and the blank
line that follows it) from every chunk after the first. -/
def stripContinuations (title : String) : List String → List String
  | [] => []
  | c :: cs => c :: stripContFrom title 2 cs

/-! ## Date extraction (monitor_news.py lines 70-83)

The regular expression `(\d{1,2})\.(\d{1,2})\.(\d{2,4})` is embedded
directly: a leftmost search that, at each start position, tries the
group lengths in the backtracking order of the greedy quantifiers
(day 2 then 1, month 2 then 1, year 4 then 3 then 2).  The digit class
is modelled as the ASCII digits. -/

structure PDate where
  year : Nat
  month : Nat
  day : Nat
deriving DecidableEq

def isAsciiDigit (c : Char) : Bool := decide ('0' ≤ c ∧ c ≤ '9')

/-- Numeric value of a digit group, as Python `int(group)`. -/
def digitsVal (ds : List Char) : Nat := ds.foldl (fun a c => 10 * a + (c.toNat - 48)) 0

/-- Take exactly `n` leading digits, returning them and the rest. -/
def takeDigits : Nat → List Char → Option (List Char × List Char)
  | 0, l => some ([], l)
  | _ + 1, [] => none
  | n + 1, c :: rest =>
      if isAsciiDigit c then
        match takeDigits n rest with
        | some (ds, r) => some (c :: ds, r)
        | none => none
      else none

/-- Match `digits{dl} dot digits{ml} dot digits{yl}` at the start of
`l`, returning the three group values. -/
def matchLens (l : List Char) (dl ml yl : Nat) : Option (Nat × Nat × Nat) :=
  match takeDigits dl l with
  | none => none
  | some (ds, r1) =>
      match r1 with
      | '.' :: r2 =>
          match takeDigits ml r2 with
          | none => none
          | some (ms, r3) =>
              match r3 with
              | '.' :: r4 =>
                  match takeDigits yl r4 with
                  | none => none
                  | some (ys, _) => some (digitsVal ds, digitsVal ms, digitsVal ys)
              | _ => none
      | _ => none

/-- The group-length combinations in the order the backtracking regex
engine tries them at one start position. -/
def greedyCombos : List (Nat × Nat × Nat) :=
  [(2, 2, 4), (2, 2, 3), (2, 2, 2), (2, 1, 4), (2, 1, 3), (2, 1, 2),
   (1, 2, 4), (1, 2, 3), (1, 2, 2), (1, 1, 4), (1, 1, 3), (1, 1, 2)]

/-- First length combination that matches at the start of `l`. -/
def firstMatch (l : List Char) : List (Nat × Nat × Nat) → Option (Nat × Nat × Nat)
  | [] => none
  | t :: ts =>
      match matchLens l t.1 t.2.1 t.2.2 with
      | some r => some r
      | none => firstMatch l ts

/-- Attempt of the regex at one start position. -/
def tryTriples (l : List Char) : Option (Nat × Nat × Nat) := firstMatch l greedyCombos

/-- Embedding of `re.search`: the match at the leftmost start position
that admits one. -/
def searchTriple : List Char → Option (Nat × Nat × Nat)
  | [] => none
  | c :: rest =>
      match tryTriples (c :: rest) with
      | some r => some r
      | none => searchTriple rest

/-- Whether `y` is a leap year, as Python `datetime.date`
(proleptic Gregorian calendar). -/
def isLeapYear (y : Nat) : Bool := y % 4 == 0 && (y % 100 != 0 || y % 400 == 0)

def daysInMonth (y m : Nat) : Nat :=
  if m = 2 then (if isLeapYear y then 29 else 28)
  else if m = 4 ∨ m = 6 ∨ m = 9 ∨ m = 11 then 30
  else 31

/-- Validity check of the Python `date(year, month, day)` constructor:
year within MINYEAR..MAXYEAR, month 1..12, day within the month. -/
def isValidYmd (y m d : Nat) : Prop :=
  1 ≤ y ∧ y ≤ 9999 ∧ 1 ≤ m ∧ m ≤ 12 ∧ 1 ≤ d ∧ d ≤ daysInMonth y m

instance (y m d : Nat) : Decidable (isValidYmd y m d) := by
  unfold isValidYmd; infer_instance

/-- Embedding of `_extract_date_from_title(title)`: empty titles parse
to nothing; otherwise the first regex match is taken, a two-digit year
is shifted by 2000, and an invalid calendar combination yields
nothing. -/
def _extract_date_from_title (title : String) : Option PDate :=
  if title = "" then none
  else
    match searchTriple title.data with
    | none => none
    | some (d, m, y) =>
        if isValidYmd (if y < 100 then y + 2000 else y) m d then
          some ⟨if y < 100 then y + 2000 else y, m, d⟩
        else none

/-! Specification-side pattern predicates for claim C8, transcribed
from the specification's words: does the text contain, at any start
position and with any admissible group lengths, a day.month.year digit
pattern (optionally required to form a valid calendar date after the
two-digit-year adjustment)?  Unlike the code's `re.search`, these scan
every occurrence, not only the leftmost greedy match. -/

/-- The length combinations of the claim's pattern description:
1-2 digit day and month with a 2- or 4-digit year. -/
def specCombos24 : List (Nat × Nat × Nat) :=
  [(1, 1, 2), (1, 1, 4), (1, 2, 2), (1, 2, 4), (2, 1, 2), (2, 1, 4), (2, 2, 2), (2, 2, 4)]

/-- Does any admissible length combination match at this position
(optionally also forming a valid adjusted calendar date)? -/
def specAnyAt (l : List Char) (combos : List (Nat × Nat × Nat)) (checkValid : Bool) : Bool :=
  combos.any (fun t =>
    match matchLens l t.1 t.2.1 t.2.2 with
    | some (d, m, y) =>
        if checkValid then decide (isValidYmd (if y < 100 then y + 2000 else y) m d) else true
    | none => false)

/-- Scan every start position for an admissible match. -/
def specScan (combos : List (Nat × Nat × Nat)) (checkValid : Bool) : List Char → Bool
  | [] => false
  | c :: rest => specAnyAt (c :: rest) combos checkValid || specScan combos checkValid rest

/-- The claim's reading: the text contains a day.month.year pattern
with 1-2 digit day and month and a 2- or 4-digit year forming a valid
calendar date after the two-digit-year adjustment. -/
def specContainsValidDate24 (t : String) : Bool := specScan specCombos24 true t.data

/-- The text contains the code's pattern (2- to 4-digit year) at some
position, valid or not. -/
def specHasPattern234 (t : String) : Bool := specScan greedyCombos false t.data

/-- The text contains the code's pattern (2- to 4-digit year) at some
position, forming a valid adjusted calendar date. -/
def specContainsValidDate234 (t : String) : Bool := specScan greedyCombos true t.data

/-! ## Recency sorter (monitor_news.py lines 121-124)

The extractor stores `item["date"] = _extract_date_from_title(title)`
and sorts with `items.sort(key=lambda item: item.get("date") or
date.min, reverse=True)`: a stable sort, descending by the parsed
date, with `date.min = 0001-01-01` substituted for entries whose
header has no parsable date.  Python's stable descending sort is the
unique stable sort for this total preorder, embedded here as an
insertion sort. -/

def dateMin : PDate := ⟨1, 1, 1⟩

/-- Ordering of `datetime.date` values: lexicographic on
(year, month, day). -/
def pdLe (a b : PDate) : Prop :=
  a.year < b.year ∨ (a.year = b.year ∧ (a.month < b.month ∨ (a.month = b.month ∧ a.day ≤ b.day)))

instance : DecidableRel pdLe := fun a b => by unfold pdLe; infer_instance

/-- Sort key of an entry: its parsed header date, `date.min` when the
header has none. -/
def dateKey (e : Entry) : PDate := (_extract_date_from_title e.title).getD dateMin

/-- The comparison of the descending stable sort: `a` may precede `b`
when its key is at least `b`'s. -/
def entryGe (a b : Entry) : Prop := pdLe (dateKey b) (dateKey a)

instance : DecidableRel entryGe := fun a b => by unfold entryGe; infer_instance

instance : IsTotal Entry entryGe :=
  ⟨fun a b => by unfold entryGe pdLe; omega⟩

instance : IsTrans Entry entryGe :=
  ⟨fun a b c hab hbc => by unfold entryGe pdLe at *; omega⟩

/-- The sorting step of `_extract_collapsible_items`: stable sort of
the extracted entries, descending by parsed header date. -/
def sortNewsItems (items : List Entry) : List Entry := List.insertionSort entryGe items

/-! ## Message formatter (monitor_news.py lines 360-395) -/

/-- Embedding of `build_message(item)`: translate title and snippet,
HTML-escape the German title and the two translations, then assemble
the line list exactly as the source does and strip the joined text. -/
def build_message (backend : String → TrOutcome) (item : Entry) : String :=
  let title_de := item.title
  let snippet_de := item.snippet
  let link := item.link
  let title_en := translate_to_english backend title_de
  let snippet_en := translate_long_text (translate_to_english backend) snippet_de 4500
  let title_de_safe := htmlEscape title_de
  let title_en_safe := htmlEscape title_en
  let snippet_en_safe := htmlEscape snippet_en
  let lines0 := ["🏔 <b>Pitztal Ice – New Update!</b>", ""]
  let lines1 :=
    if title_en_safe = "" then lines0
    else
      lines0 ++ (["<b>" ++ title_en_safe ++ "</b>"] ++
        (if title_de_safe ≠ "" ∧ title_de_safe ≠ title_en_safe then
          ["<i>(Original: " ++ title_de_safe ++ ")</i>"]
        else []) ++ [""])
  let lines2 := if snippet_en_safe = "" then lines1 else lines1 ++ [snippet_en_safe, ""]
  let lines3 :=
    if link = "" then lines2
    else lines2 ++ ["<a href=\"" ++ link ++ "\">Read more</a>"]
  pyStrip (pyJoin "\n" lines3)

/-- Assembly skeleton of the notification message, transcribed from
the specification's description of the Message Formatter, taking the
four already-prepared fragments: escaped translated title, escaped
original title, escaped translated snippet, and the text placed in the
anchor's href attribute. -/
def messageSkeleton (titleEsc origEsc snipEsc linkText : String) : String :=
  pyStrip (pyJoin "\n"
    (["🏔 <b>Pitztal Ice – New Update!</b>", ""] ++
     (if titleEsc = "" then []
      else
        ["<b>" ++ titleEsc ++ "</b>"] ++
        (if origEsc ≠ "" ∧ origEsc ≠ titleEsc then
          ["<i>(Original: " ++ origEsc ++ ")</i>"]
        else []) ++ [""]) ++
     (if snipEsc = "" then [] else [snipEsc, ""]) ++
     (if linkText = "" then []
      else ["<a href=\"" ++ linkText ++ "\">Read more</a>"])))

/-! ## Delivery and orchestrator (monitor_news.py lines 278-357 and
415-441)

The transport is a capability parameter: `send c = none` models a
successful `send_telegram_message(c)` (including the silent skip when
credentials are missing), `send c = some e` a raised transport error.
Terminal preview printing has no effect on the run's state and is
modelled by the unused `preview` flag. -/

inductive DeliveryErr where
  | transport : DeliveryErr
deriving DecidableEq

/-- Sequential delivery of the chunks, stopping at the first raised
error, as the loop in `send_telegram_messages` (lines 347-352). -/
def sendSeq (send : String → Option DeliveryErr) : List String → Option DeliveryErr
  | [] => none
  | c :: cs =>
      match send c with
      | some e => some e
      | none => sendSeq send cs

/-- Embedding of `send_telegram_messages(item, message)`: split the
message at the 4000-character default limit with the item's title and
deliver the chunks in order. -/
def sendTelegramMessages (send : String → Option DeliveryErr) (item : Entry)
    (message : String) : Option DeliveryErr :=
  sendSeq send (_split_message_into_chunks message item.title 4000)

/-- Embedding of `main(preview, telegram)` as a function from the run's
inputs to its outcome: the first component is the error propagated out
of the run (none when the run completes), the second the record passed
to `save_last_seen` (none when nothing is persisted). -/
def mainModel (backend : String → TrOutcome) (send : String → Option DeliveryErr)
    (items : List Entry) (lastSeen : SeenRec) (preview telegram : Bool) :
    Option DeliveryErr × Option Entry :=
  match items with
  | [] => (none, none)
  | latest :: _ =>
      if is_new latest.toSeen lastSeen then
        match (if telegram then sendTelegramMessages send latest (build_message backend latest)
               else none) with
        | some e => (some e, none)
        | none => (none, some latest)
      else (none, none)

/-! ## Supporting lemmas -/

/-- Two strings with the same character data are equal. -/
theorem strExt {a b : String} (h : a.data = b.data) : a = b := by
  cases a; cases b; cases h; rfl

theorem strData_append (a b : String) : (a ++ b).data = a.data ++ b.data := by
  cases a; cases b; rfl

theorem strData_mk (l : List Char) : (String.mk l).data = l := rfl

theorem pyJoin_data (sep : String) (ss : List String) :
    (pyJoin sep ss).data = joinCh sep.data (ss.map String.data) := by
  match ss with
  | [] => rfl
  | [x] => rfl
  | x :: y :: xs =>
      simp only [pyJoin, joinCh, List.map, strData_append]
      rw [pyJoin_data sep (y :: xs)]
      rfl

theorem splitNlData_ne_nil (l : List Char) : splitNlData l ≠ [] := by
  match l with
  | [] => simp [splitNlData]
  | c :: rest =>
      simp only [splitNlData]
      split
      · simp
      · cases h : splitNlData rest <;> simp [consHead]

theorem splitPPData_ne_nil (l : List Char) : splitPPData l ≠ [] := by
  induction l using splitPPData.induct with
  | case1 => simp [splitPPData]
  | case2 c => simp [splitPPData]
  | case3 c1 c2 rest h ih =>
      simp only [splitPPData, if_pos h]
      simp
  | case4 c1 c2 rest h ih =>
      simp only [splitPPData, if_neg h]
      cases hs : splitPPData (c2 :: rest) <;> simp [consHead]

theorem joinCh_consHead (sep : List Char) (c : Char) (gs : List (List Char)) :
    joinCh sep (consHead c gs) = c :: joinCh sep gs := by
  match gs with
  | [] => rfl
  | [x] => rfl
  | x :: y :: xs => rfl

theorem joinCh_nl_splitNl (l : List Char) :
    joinCh ['\n'] (splitNlData l) = l := by
  match l with
  | [] => rfl
  | c :: rest =>
      simp only [splitNlData]
      split
      · next hc =>
          subst hc
          have hne := splitNlData_ne_nil rest
          cases h : splitNlData rest with
          | nil => exact absurd h hne
          | cons g gs =>
              have hrec := joinCh_nl_splitNl rest
              rw [h] at hrec
              simp [joinCh, ← hrec]
      · next hc =>
          rw [joinCh_consHead, joinCh_nl_splitNl rest]

theorem joinCh_pp_splitPP (l : List Char) :
    joinCh ['\n', '\n'] (splitPPData l) = l := by
  induction l using splitPPData.induct with
  | case1 => rfl
  | case2 c => rfl
  | case3 c1 c2 rest h ih =>
      obtain ⟨h1, h2⟩ := h
      subst h1; subst h2
      simp only [splitPPData, if_pos (And.intro rfl rfl)]
      have hne := splitPPData_ne_nil rest
      cases hs : splitPPData rest with
      | nil => exact absurd hs hne
      | cons g gs =>
          rw [hs] at ih
          simp [joinCh, ← ih]
  | case4 c1 c2 rest h ih =>
      simp only [splitPPData, if_neg h]
      rw [joinCh_consHead, ih]

theorem strMk_data (s : String) : String.mk s.data = s := by cases s; rfl

theorem strLength_data (s : String) : s.length = s.data.length := rfl

theorem strLength_append (a b : String) : (a ++ b).length = a.length + b.length := by
  rw [strLength_data, strLength_data a, strLength_data b, strData_append, List.length_append]

theorem pyJoin_cons_cons (sep x y : String) (xs : List String) :
    pyJoin sep (x :: y :: xs) = x ++ sep ++ pyJoin sep (y :: xs) := rfl

theorem pyJoin_pySplitNl (s : String) : pyJoin "\n" (pySplitNl s) = s := by
  apply strExt
  rw [pyJoin_data]
  have h1 : (pySplitNl s).map String.data = splitNlData s.data := by
    simp only [pySplitNl, List.map_map]
    have : (String.data ∘ String.mk) = id := rfl
    rw [this, List.map_id]
  rw [h1]
  have h2 : ("\n" : String).data = ['\n'] := rfl
  rw [h2, joinCh_nl_splitNl]

theorem pyJoin_pySplitPP (s : String) : pyJoin "\n\n" (pySplitPP s) = s := by
  apply strExt
  rw [pyJoin_data]
  have h1 : (pySplitPP s).map String.data = splitPPData s.data := by
    simp only [pySplitPP, List.map_map]
    have : (String.data ∘ String.mk) = id := rfl
    rw [this, List.map_id]
  rw [h1]
  have h2 : ("\n\n" : String).data = ['\n', '\n'] := rfl
  rw [h2, joinCh_pp_splitPP]

theorem pySplitNl_ne_nil (s : String) : pySplitNl s ≠ [] := by
  intro h
  unfold pySplitNl at h
  cases hs : splitNlData s.data with
  | nil => exact splitNlData_ne_nil s.data hs
  | cons a b => rw [hs] at h; simp at h

theorem pySplitPP_ne_nil (s : String) : pySplitPP s ≠ [] := by
  intro h
  unfold pySplitPP at h
  cases hs : splitPPData s.data with
  | nil => exact splitPPData_ne_nil s.data hs
  | cons a b => rw [hs] at h; simp at h

theorem splitNlData_no_nl : ∀ (l : List Char), ∀ g ∈ splitNlData l, '\n' ∉ g := by
  intro l
  induction l with
  | nil => intro g hg; simp [splitNlData] at hg; simp [hg]
  | cons c rest ih =>
      intro g hg
      simp only [splitNlData] at hg
      by_cases hc : c = '\n'
      · rw [if_pos hc] at hg
        rcases List.mem_cons.mp hg with rfl | hmem
        · simp
        · exact ih g hmem
      · rw [if_neg hc] at hg
        cases hs : splitNlData rest with
        | nil => exact absurd hs (splitNlData_ne_nil rest)
        | cons g0 gs =>
            rw [hs] at hg
            simp only [consHead] at hg
            rcases List.mem_cons.mp hg with rfl | hmem
            · intro hmem2
              rcases List.mem_cons.mp hmem2 with h1 | h2
              · exact hc h1.symm
              · exact ih g0 (hs ▸ List.mem_cons_self g0 gs) h2
            · exact ih g (hs ▸ List.mem_cons_of_mem g0 hmem)

theorem pySplitNl_no_nl (s : String) : ∀ x ∈ pySplitNl s, '\n' ∉ x.data := by
  intro x hx
  simp only [pySplitNl, List.mem_map] at hx
  obtain ⟨g, hg, rfl⟩ := hx
  exact splitNlData_no_nl s.data g hg

theorem pyJoin_append (sep : String) :
    ∀ (a b : List String), a ≠ [] → b ≠ [] →
      pyJoin sep (a ++ b) = pyJoin sep a ++ sep ++ pyJoin sep b := by
  intro a
  induction a with
  | nil => intro b ha _; exact absurd rfl ha
  | cons x a ih =>
      intro b _ hb
      cases a with
      | nil =>
          cases b with
          | nil => exact absurd rfl hb
          | cons y b => simp [pyJoin]
      | cons x2 a2 =>
          have hrec := ih b (by simp) hb
          simp only [List.cons_append] at hrec ⊢
          rw [pyJoin_cons_cons, pyJoin_cons_cons]
          rw [show (x2 :: (a2 ++ b)) = (x2 :: a2) ++ b from rfl] at *
          rw [hrec]
          simp [String.append_assoc]

theorem pyJoin_map_flatten (sep : String) :
    ∀ (gs : List (List String)), (∀ g ∈ gs, g ≠ []) →
      pyJoin sep (gs.map (pyJoin sep)) = pyJoin sep gs.flatten := by
  intro gs
  induction gs with
  | nil => intro _; rfl
  | cons g gs ih =>
      intro h
      cases gs with
      | nil => simp [pyJoin]
      | cons g2 gs2 =>
          have hg : g ≠ [] := h g (List.mem_cons_self _ _)
          have hrest : ∀ g' ∈ (g2 :: gs2), g' ≠ [] :=
            fun g' h' => h g' (List.mem_cons_of_mem _ h')
          have hflat : (g2 :: gs2).flatten ≠ [] := by
            have hg2 : g2 ≠ [] := hrest g2 (List.mem_cons_self _ _)
            simp only [List.flatten_cons]
            intro hx
            exact hg2 (List.append_eq_nil.mp hx).1
          rw [show (g :: g2 :: gs2).map (pyJoin sep) =
                pyJoin sep g :: pyJoin sep g2 :: gs2.map (pyJoin sep) from rfl]
          rw [pyJoin_cons_cons]
          rw [show (pyJoin sep g2 :: gs2.map (pyJoin sep)) =
                (g2 :: gs2).map (pyJoin sep) from rfl]
          rw [ih hrest]
          rw [show (g :: g2 :: gs2).flatten = g ++ (g2 :: gs2).flatten from rfl]
          rw [pyJoin_append sep g (g2 :: gs2).flatten hg hflat]

/-! Lemmas about the shared greedy packing loop. -/

theorem genPack_flatten (cw aw rw : String → Nat) (limit : Nat) :
    ∀ (xs cur : List String) (n : Nat),
      (genPack cw aw rw limit xs cur n).flatten = cur ++ xs := by
  intro xs
  induction xs with
  | nil =>
      intro cur n
      simp only [genPack]
      split
      · simp_all
      · simp
  | cons x xs ih =>
      intro cur n
      simp only [genPack]
      split
      · simp [ih]
      · simp [ih]

theorem genPack_mem_ne_nil (cw aw rw : String → Nat) (limit : Nat) :
    ∀ (xs cur : List String) (n : Nat), ∀ g ∈ genPack cw aw rw limit xs cur n, g ≠ [] := by
  intro xs
  induction xs with
  | nil =>
      intro cur n g hg
      simp only [genPack] at hg
      split at hg
      · simp at hg
      · next h =>
          rw [List.mem_singleton] at hg
          exact hg ▸ h
  | cons x xs ih =>
      intro cur n g hg
      simp only [genPack] at hg
      split at hg
      · next h =>
          rcases List.mem_cons.mp hg with rfl | hmem
          · exact h.2
          · exact ih _ _ g hmem
      · exact ih _ _ g hg

theorem genPack_ne_nil (cw aw rw : String → Nat) (limit : Nat) :
    ∀ (xs cur : List String) (n : Nat), cur ≠ [] → genPack cw aw rw limit xs cur n ≠ [] := by
  intro xs
  induction xs with
  | nil =>
      intro cur n hcur
      simp only [genPack]
      rw [if_neg hcur]
      simp
  | cons x xs ih =>
      intro cur n hcur
      simp only [genPack]
      split
      · simp
      · exact ih _ _ (by simp)

theorem genPack_start (cw aw rw : String → Nat) (limit : Nat) (x : String)
    (xs : List String) (n : Nat) :
    genPack cw aw rw limit (x :: xs) [] n = genPack cw aw rw limit xs [x] (n + aw x) := by
  simp [genPack]

theorem wsum_singleton (w : String → Nat) (x : String) : wsum w [x] = w x := by
  simp [wsum]

theorem wsum_append_singleton (w : String → Nat) (cur : List String) (x : String) :
    wsum w (cur ++ [x]) = wsum w cur + w x := by
  simp [wsum]

theorem genPack_bound (w : String → Nat) (limit : Nat) :
    ∀ (xs cur : List String) (n : Nat), n = wsum w cur →
      ((∃ a, cur = [a]) ∨ n ≤ limit) →
      ∀ g ∈ genPack w w w limit xs cur n, (∃ a, g = [a]) ∨ wsum w g ≤ limit := by
  intro xs
  induction xs with
  | nil =>
      intro cur n hn hone g hg
      simp only [genPack] at hg
      split at hg
      · simp at hg
      · rw [List.mem_singleton] at hg
        subst hg
        exact hn ▸ hone
  | cons x xs ih =>
      intro cur n hn hone g hg
      simp only [genPack] at hg
      split at hg
      · next hcond =>
          rcases List.mem_cons.mp hg with rfl | hmem
          · exact hn ▸ hone
          · exact ih [x] (w x) (wsum_singleton w x).symm (Or.inl ⟨x, rfl⟩) g hmem
      · next hcond =>
          refine ih (cur ++ [x]) (n + w x) ?_ ?_ g hg
          · rw [wsum_append_singleton, hn]
          · by_cases hc : cur = []
            · subst hc
              exact Or.inl ⟨x, rfl⟩
            · have hle : ¬ limit < n + w x := fun hlt => hcond ⟨hlt, hc⟩
              exact Or.inr (Nat.le_of_not_lt hle)

theorem pyJoin_nl_length :
    ∀ (g : List String), g ≠ [] → (pyJoin "\n" g).length + 1 = wsum lineWeight g := by
  intro g
  induction g with
  | nil => intro h; exact absurd rfl h
  | cons x g ih =>
      intro _
      cases g with
      | nil => simp [pyJoin, wsum, lineWeight]
      | cons y t =>
          rw [pyJoin_cons_cons, strLength_append, strLength_append]
          have hrec := ih (by simp)
          have hn : ("\n" : String).length = 1 := rfl
          rw [hn]
          simp only [wsum, lineWeight, List.map_cons, List.sum_cons] at hrec ⊢
          omega

/-! Lemmas about continuation headers. -/

theorem dropChars_append (h c : String) : dropChars h.length (h ++ c) = c := by
  apply strExt
  rw [dropChars, strData_mk, strData_append, strLength_data, List.drop_left]

theorem stripContFrom_addHeadersFrom (title : String) :
    ∀ (cs : List String) (k : Nat), stripContFrom title k (addHeadersFrom title k cs) = cs := by
  intro cs
  induction cs with
  | nil => intro k; rfl
  | cons c cs ih =>
      intro k
      simp only [addHeadersFrom, stripContFrom]
      rw [dropChars_append, ih]

theorem addHeadersFrom_getElem? (title : String) :
    ∀ (cs : List String) (k i : Nat),
      (addHeadersFrom title k cs)[i]? = (cs[i]?).map (fun c => chunkHeader title (k + i) ++ c) := by
  intro cs
  induction cs with
  | nil => intro k i; simp [addHeadersFrom]
  | cons c cs ih =>
      intro k i
      cases i with
      | zero => simp [addHeadersFrom]
      | succ i =>
          simp only [addHeadersFrom, List.getElem?_cons_succ]
          rw [ih (k + 1) i]
          have : k + 1 + i = k + (i + 1) := by omega
          rw [this]

/-! Lemmas about the delivery segmenter's chunk bodies. -/

theorem packMsgLines_flatten (m : String) (L : Nat) :
    (packMsgLines m L).flatten = pySplitNl m := by
  unfold packMsgLines
  rw [genPack_flatten]
  rfl

theorem packMsgLines_ne_nil (m : String) (L : Nat) : packMsgLines m L ≠ [] := by
  unfold packMsgLines
  cases hs : pySplitNl m with
  | nil => exact absurd hs (pySplitNl_ne_nil m)
  | cons x xs =>
      rw [genPack_start]
      exact genPack_ne_nil _ _ _ _ _ _ _ (by simp)

theorem msgCoreChunks_spec (m : String) (L : Nat) :
    ∀ c ∈ msgCoreChunks m L, c.length ≤ L ∨ '\n' ∉ c.data := by
  intro c hc
  simp only [msgCoreChunks, List.mem_map] at hc
  obtain ⟨g, hg, rfl⟩ := hc
  have hne : g ≠ [] := genPack_mem_ne_nil _ _ _ _ _ _ _ g hg
  have hb := genPack_bound lineWeight L (pySplitNl m) [] 0 (by simp [wsum])
    (Or.inr (Nat.zero_le L)) g hg
  rcases hb with ⟨a, rfl⟩ | hle
  · right
    have hj : pyJoin "\n" [a] = a := rfl
    rw [hj]
    have hmem : a ∈ pySplitNl m := by
      have hfl := packMsgLines_flatten m L
      have ha : a ∈ (packMsgLines m L).flatten :=
        List.mem_flatten.mpr ⟨[a], hg, List.mem_singleton_self a⟩
      rw [hfl] at ha
      exact ha
    exact pySplitNl_no_nl m a hmem
  · left
    have hlen := pyJoin_nl_length g hne
    omega

theorem pyJoin_msgCoreChunks (m : String) (L : Nat) :
    pyJoin "\n" (msgCoreChunks m L) = m := by
  unfold msgCoreChunks packMsgLines
  rw [pyJoin_map_flatten "\n" _ (fun g hg => genPack_mem_ne_nil _ _ _ _ _ _ _ g hg)]
  rw [genPack_flatten]
  simpa using pyJoin_pySplitNl m

/-! Lemmas about the translation chunker. -/

theorem packParagraphs_flatten (text : String) (L : Nat) :
    (packParagraphs L (pySplitPP text)).flatten = pySplitPP text := by
  unfold packParagraphs
  rw [genPack_flatten]
  rfl

theorem translate_to_english_id (s : String) :
    translate_to_english (fun t => TrOutcome.ok (some t)) s = s := by
  by_cases h : s = ""
  · simp [translate_to_english, h]
  · simp [translate_to_english, h]

theorem translate_long_text_congr (tr trB : String → String) (h : ∀ s, tr s = trB s)
    (text : String) (maxChunkSize : Nat) :
    translate_long_text tr text maxChunkSize = translate_long_text trB text maxChunkSize := by
  have hfun : tr = trB := funext h
  rw [hfun]

theorem tlt_identity (text : String) (maxChunkSize : Nat) :
    translate_long_text (fun s => s) text maxChunkSize = text := by
  unfold translate_long_text
  by_cases h1 : text = ""
  · rw [if_pos h1]
  · rw [if_neg h1]
    by_cases h2 : text.length ≤ maxChunkSize
    · rw [if_pos h2]
    · rw [if_neg h2]
      rw [show (tltChunks text maxChunkSize).map (fun s => s) = tltChunks text maxChunkSize by
        simp]
      unfold tltChunks packParagraphs
      rw [pyJoin_map_flatten "\n\n" _ (fun g hg => genPack_mem_ne_nil _ _ _ _ _ _ _ g hg)]
      rw [genPack_flatten]
      simpa using pyJoin_pySplitPP text

theorem tltChunks_ne_nil (text : String) (L : Nat) : tltChunks text L ≠ [] := by
  unfold tltChunks packParagraphs
  cases hs : pySplitPP text with
  | nil => exact absurd hs (pySplitPP_ne_nil text)
  | cons x xs =>
      rw [genPack_start]
      intro hmap
      exact genPack_ne_nil _ _ _ _ _ _ _ (by simp) (List.map_eq_nil_iff.mp hmap)

/-! Lemmas about delivery. -/

theorem sendSeq_some_of_exists (send : String → Option DeliveryErr) :
    ∀ (cs : List String), (∃ c ∈ cs, send c ≠ none) → ∃ e, sendSeq send cs = some e := by
  intro cs
  induction cs with
  | nil => rintro ⟨c, hc, _⟩; simp at hc
  | cons c cs ih =>
      rintro ⟨cB, hcB, hne⟩
      simp only [sendSeq]
      cases hsend : send c with
      | some e => exact ⟨e, rfl⟩
      | none =>
          rcases List.mem_cons.mp hcB with rfl | hmem
          · exact absurd hsend hne
          · exact ih ⟨cB, hmem, hne⟩

/-! Lemmas about the date search. -/

theorem firstMatch_mem :
    ∀ (cs : List (Nat × Nat × Nat)) (l : List Char) (r : Nat × Nat × Nat),
      firstMatch l cs = some r → ∃ t ∈ cs, matchLens l t.1 t.2.1 t.2.2 = some r := by
  intro cs
  induction cs with
  | nil => intro l r h; simp [firstMatch] at h
  | cons t ts ih =>
      intro l r h
      simp only [firstMatch] at h
      cases hm : matchLens l t.1 t.2.1 t.2.2 with
      | some rB =>
          rw [hm] at h
          exact ⟨t, List.mem_cons_self _ _, hm.trans (congrArg _ (Option.some.inj h))⟩
      | none =>
          rw [hm] at h
          obtain ⟨tB, htB, hmt⟩ := ih l r h
          exact ⟨tB, List.mem_cons_of_mem _ htB, hmt⟩

theorem specScan_of_searchTriple (chk : Bool) :
    ∀ (l : List Char) (d m y : Nat),
      searchTriple l = some (d, m, y) →
      (chk = true → isValidYmd (if y < 100 then y + 2000 else y) m d) →
      specScan greedyCombos chk l = true := by
  intro l
  induction l with
  | nil => intro d m y h _; simp [searchTriple] at h
  | cons c rest ih =>
      intro d m y h hval
      simp only [searchTriple] at h
      cases ht : tryTriples (c :: rest) with
      | some r =>
          rw [ht] at h
          have hr : r = (d, m, y) := Option.some.inj h
          subst hr
          obtain ⟨t, htmem, hml⟩ := firstMatch_mem greedyCombos (c :: rest) (d, m, y) ht
          have hany : specAnyAt (c :: rest) greedyCombos chk = true := by
            unfold specAnyAt
            rw [List.any_eq_true]
            refine ⟨t, htmem, ?_⟩
            rw [hml]
            cases chk with
            | false => rfl
            | true => simpa using hval rfl
          simp [specScan, hany]
      | none =>
          rw [ht] at h
          have := ih d m y h hval
          simp [specScan, this]

theorem extract_eq_of_search (t : String) (h1 : t ≠ "") (d m y : Nat)
    (hs : searchTriple t.data = some (d, m, y)) :
    _extract_date_from_title t =
      if isValidYmd (if y < 100 then y + 2000 else y) m d then
        some ⟨if y < 100 then y + 2000 else y, m, d⟩
      else none := by
  unfold _extract_date_from_title
  rw [if_neg h1, hs]

theorem extract_eq_none_of_search (t : String) (h1 : t ≠ "")
    (hs : searchTriple t.data = none) : _extract_date_from_title t = none := by
  unfold _extract_date_from_title
  rw [if_neg h1, hs]

theorem extract_isSome_elim (t : String) :
    (_extract_date_from_title t).isSome = true →
    ∃ d m y, searchTriple t.data = some (d, m, y) ∧
      isValidYmd (if y < 100 then y + 2000 else y) m d := by
  intro h
  by_cases h1 : t = ""
  · unfold _extract_date_from_title at h
    rw [if_pos h1] at h
    simp at h
  · cases hs : searchTriple t.data with
    | none =>
        rw [extract_eq_none_of_search t h1 hs] at h
        simp at h
    | some r =>
        obtain ⟨d, m, y⟩ := r
        by_cases hv : isValidYmd (if y < 100 then y + 2000 else y) m d
        · exact ⟨d, m, y, rfl, hv⟩
        · exfalso
          rw [extract_eq_of_search t h1 d m y hs, if_neg hv] at h
          simp at h

theorem extract_year_lb (t : String) (p : PDate) :
    _extract_date_from_title t = some p → 100 ≤ p.year := by
  intro h
  by_cases h1 : t = ""
  · unfold _extract_date_from_title at h
    rw [if_pos h1] at h
    cases h
  · cases hs : searchTriple t.data with
    | none =>
        rw [extract_eq_none_of_search t h1 hs] at h
        cases h
    | some r =>
        obtain ⟨d, m, y⟩ := r
        rw [extract_eq_of_search t h1 d m y hs] at h
        by_cases hv : isValidYmd (if y < 100 then y + 2000 else y) m d
        · rw [if_pos hv] at h
          have hp := (Option.some.inj h).symm
          subst hp
          by_cases hy : y < 100 <;> simp [hy] <;> omega
        · rw [if_neg hv] at h
          cases h

/-! Lemmas about the stable sort. -/

theorem pdLe_refl (a : PDate) : pdLe a a := by unfold pdLe; omega

theorem entryGe_of_eq_key {a b : Entry} (h : dateKey a = dateKey b) : entryGe a b := by
  unfold entryGe
  rw [h]
  exact pdLe_refl _

theorem filter_orderedInsert (k : PDate) (a : Entry) :
    ∀ (l : List Entry),
      (List.orderedInsert entryGe a l).filter (fun e => dateKey e == k) =
        if dateKey a == k then a :: l.filter (fun e => dateKey e == k)
        else l.filter (fun e => dateKey e == k) := by
  intro l
  induction l with
  | nil =>
      simp [List.orderedInsert, List.filter_cons]
  | cons b l ih =>
      simp only [List.orderedInsert]
      split
      · next hab => rw [List.filter_cons]
      · next hab =>
          rw [List.filter_cons, List.filter_cons, ih]
          by_cases hpa : (dateKey a == k) = true
          · have hkey : dateKey a = k := by simpa using hpa
            have hb : (dateKey b == k) = false := by
              rw [beq_eq_false_iff_ne]
              intro hbk
              exact hab (entryGe_of_eq_key (by rw [hkey, hbk]))
            rw [hpa, hb]
            simp
          · have hpaB : (dateKey a == k) = false := by
              cases hx : (dateKey a == k) with
              | true => exact absurd hx hpa
              | false => rfl
            rw [hpaB]
            simp

theorem filter_sortNewsItems (k : PDate) (l : List Entry) :
    (sortNewsItems l).filter (fun e => dateKey e == k) =
      l.filter (fun e => dateKey e == k) := by
  unfold sortNewsItems
  induction l with
  | nil => rfl
  | cons a l ih =>
      simp only [List.insertionSort]
      rw [filter_orderedInsert, ih, List.filter_cons]

theorem pdLe_dateMin_year {p : PDate} (h : pdLe p dateMin) : p.year ≤ 1 := by
  unfold pdLe at h
  have h1 : dateMin.year = 1 := rfl
  have h2 : dateMin.month = 1 := rfl
  have h3 : dateMin.day = 1 := rfl
  omega

theorem undated_of_ge_undated {a b : Entry} (h : entryGe a b)
    (ha : _extract_date_from_title a.title = none) :
    _extract_date_from_title b.title = none := by
  unfold entryGe at h
  have hka : dateKey a = dateMin := by unfold dateKey; rw [ha]; rfl
  rw [hka] at h
  cases hb : _extract_date_from_title b.title with
  | none => rfl
  | some p =>
      have hyb := extract_year_lb b.title p hb
      have hkb : dateKey b = p := by unfold dateKey; rw [hb]; rfl
      rw [hkb] at h
      have := pdLe_dateMin_year h
      omega

/-! ## Claim theorems -/

/-- Claim C1, counterexample: the claim states that a field absent from
either mapping compares as the empty string; but `is_new` compares the
raw `dict.get` values, so an absent title on one side and an empty
title on the other count as a difference, making the item new where
the claim predicts it is not. -/
theorem claimC1_counterexample :
    ¬ (is_new ⟨none, some "x"⟩ ⟨some "", some "x"⟩ = true ↔
        ((SeenRec.mk none (some "x")).title.getD "" ≠
            (SeenRec.mk (some "") (some "x")).title.getD "" ∨
         (SeenRec.mk none (some "x")).snippet.getD "" ≠
            (SeenRec.mk (some "") (some "x")).snippet.getD "")) := by
  decide

/-- Claim C1 as amended: `is_new` returns true exactly when the raw
optional title values differ or the raw optional snippet values
differ, where an absent field equals only an absent field (it is
distinct from every present string, including the empty string), and
present fields are compared by exact string equality with no
whitespace or case normalization. -/
theorem claimC1_amended (item lastSeen : SeenRec) :
    is_new item lastSeen = true ↔
      (item.title ≠ lastSeen.title ∨ item.snippet ≠ lastSeen.snippet) := by
  unfold is_new
  rw [Bool.or_eq_true, bne_iff_ne, bne_iff_ne]

/-- Claim C2: in a run where a new item is detected and delivery is
attempted, if any delivery call raises an error the error propagates
out of the run and nothing is persisted, while a completed delivery is
followed by persisting exactly the detected item. -/
theorem claimC2_delivery_gates_persistence
    (backend : String → TrOutcome) (send : String → Option DeliveryErr)
    (latest : Entry) (rest : List Entry) (lastSeen : SeenRec) (preview : Bool)
    (hnew : is_new latest.toSeen lastSeen = true) :
    ((∃ c ∈ _split_message_into_chunks (build_message backend latest) latest.title 4000,
        send c ≠ none) →
      ∃ e, mainModel backend send (latest :: rest) lastSeen preview true = (some e, none)) ∧
    (sendTelegramMessages send latest (build_message backend latest) = none →
      mainModel backend send (latest :: rest) lastSeen preview true = (none, some latest)) := by
  constructor
  · intro hex
    obtain ⟨e, he⟩ := sendSeq_some_of_exists send _ hex
    refine ⟨e, ?_⟩
    simp only [mainModel, hnew, if_true, sendTelegramMessages]
    rw [he]
  · intro hok
    simp only [mainModel, hnew, if_true]
    rw [hok]

/-- Witness for claim C2 at a concrete run: a transport that fails on
every chunk aborts the run without persisting, and a transport that
accepts every chunk lets the run persist the detected item. -/
theorem claimC2_witness :
    (∃ e, mainModel (fun s => TrOutcome.ok (some s)) (fun _ => some DeliveryErr.transport)
        [⟨"T", "S", ""⟩] ⟨none, none⟩ true true = (some e, none)) ∧
    mainModel (fun s => TrOutcome.ok (some s)) (fun _ => none)
        [⟨"T", "S", ""⟩] ⟨none, none⟩ true true = (none, some ⟨"T", "S", ""⟩) := by
  constructor
  · exact (claimC2_delivery_gates_persistence (fun s => TrOutcome.ok (some s))
      (fun _ => some DeliveryErr.transport) ⟨"T", "S", ""⟩ [] ⟨none, none⟩ true (by decide)).1
      ⟨build_message (fun s => TrOutcome.ok (some s)) ⟨"T", "S", ""⟩, by decide, by decide⟩
  · exact (claimC2_delivery_gates_persistence (fun s => TrOutcome.ok (some s))
      (fun _ => none) ⟨"T", "S", ""⟩ [] ⟨none, none⟩ true (by decide)).2 (by decide)

/-- Claim C3, counterexample: the claim states that the link is
HTML-escaped before being placed into the message; but `build_message`
interpolates the raw link into the anchor, so for a link containing a
double quote the produced message differs from the fully escaped
assembly. -/
theorem claimC3_counterexample :
    build_message (fun s => TrOutcome.ok (some s)) ⟨"T", "", "x\"y"⟩ ≠
      messageSkeleton
        (htmlEscape (translate_to_english (fun s => TrOutcome.ok (some s)) "T"))
        (htmlEscape "T")
        (htmlEscape (translate_long_text
          (translate_to_english (fun s => TrOutcome.ok (some s))) "" 4500))
        (htmlEscape "x\"y") := by
  decide

/-- Claim C3 as amended: the title (translated and original) and the
snippet are HTML-escaped before being placed into the message body,
while the link is placed into the href attribute verbatim, without
escaping. -/
theorem claimC3_amended (backend : String → TrOutcome) (item : Entry) :
    build_message backend item =
      messageSkeleton
        (htmlEscape (translate_to_english backend item.title))
        (htmlEscape item.title)
        (htmlEscape (translate_long_text (translate_to_english backend) item.snippet 4500))
        item.link := by
  unfold build_message messageSkeleton
  by_cases h1 : htmlEscape (translate_to_english backend item.title) = "" <;>
    by_cases h2 :
      htmlEscape (translate_long_text (translate_to_english backend) item.snippet 4500) = "" <;>
    by_cases h3 : item.link = "" <;>
    simp [h1, h2, h3, List.append_assoc]

/-- Claim C4: whenever the translation backend fails (not-found,
rate-limited, transport error, or unexpected), `translate_to_english`
returns the original input text unchanged; the failure is absorbed, not
propagated. -/
theorem claimC4_translation_fallback (backend : String → TrOutcome) (text : String)
    (h : (backend text).isErr = true) :
    translate_to_english backend text = text := by
  unfold translate_to_english
  by_cases h1 : text = ""
  · rw [if_pos h1]
  · rw [if_neg h1]
    cases hb : backend text with
    | ok r => rw [hb] at h; simp [TrOutcome.isErr] at h
    | notFound => rfl
    | tooMany => rfl
    | requestFailed => rfl
    | unexpectedFailure => rfl

/-- Witness for claim C4: a rate-limited backend leaves the input
unchanged. -/
theorem claimC4_witness :
    translate_to_english (fun _ => TrOutcome.tooMany) "Hallo" = "Hallo" :=
  claimC4_translation_fallback (fun _ => TrOutcome.tooMany) "Hallo" (by decide)

/-- Claim C5, counterexample: the claim states that every returned
chunk, including the continuation header, has length at most the
limit; but the headers are prepended after the packing, so the second
chunk of this split exceeds the limit of 5. -/
theorem claimC5_counterexample :
    ¬ (∀ c ∈ _split_message_into_chunks "aaaaa\nbbbbb" "T" 5, c.length ≤ 5) := by
  decide

/-- Claim C5 as amended: every returned chunk consists of an optional
continuation header (present exactly on chunks after the first)
followed by a body that either fits within the size limit or is a
single line of the original message (which may alone exceed the
limit); the continuation header itself may push the chunk's total
length beyond the limit. -/
theorem claimC5_amended (m t : String) (L : Nat) (i : Nat) (c : String)
    (hc : (_split_message_into_chunks m t L)[i]? = some c) :
    ∃ core : String,
      ((i = 0 ∧ c = core) ∨ (1 ≤ i ∧ c = chunkHeader t (i + 1) ++ core)) ∧
      (core.length ≤ L ∨ '\n' ∉ core.data) := by
  unfold _split_message_into_chunks at hc
  by_cases hlen : m.length ≤ L
  · rw [if_pos hlen] at hc
    cases i with
    | zero =>
        simp only [List.getElem?_cons_zero] at hc
        have hcm := Option.some.inj hc
        subst hcm
        exact ⟨m, Or.inl ⟨rfl, rfl⟩, Or.inl hlen⟩
    | succ n => simp at hc
  · rw [if_neg hlen] at hc
    cases hcore : msgCoreChunks m L with
    | nil =>
        exfalso
        unfold msgCoreChunks at hcore
        exact packMsgLines_ne_nil m L (List.map_eq_nil_iff.mp hcore)
    | cons c0 cs =>
        rw [hcore] at hc
        simp only [addHeaders] at hc
        cases i with
        | zero =>
            simp only [List.getElem?_cons_zero] at hc
            have hcm := Option.some.inj hc
            subst hcm
            refine ⟨c0, Or.inl ⟨rfl, rfl⟩, ?_⟩
            exact msgCoreChunks_spec m L c0 (by rw [hcore]; exact List.mem_cons_self _ _)
        | succ n =>
            rw [List.getElem?_cons_succ, addHeadersFrom_getElem?] at hc
            cases hcs : cs[n]? with
            | none => rw [hcs] at hc; simp at hc
            | some core =>
                rw [hcs] at hc
                simp only [Option.map_some'] at hc
                have hcm := Option.some.inj hc
                refine ⟨core, Or.inr ⟨Nat.succ_le_succ (Nat.zero_le n), ?_⟩, ?_⟩
                · rw [← hcm]
                  have : 2 + n = n + 1 + 1 := by omega
                  rw [this]
                · have hmem : core ∈ msgCoreChunks m L := by
                    rw [hcore]
                    exact List.mem_cons_of_mem _ (List.getElem?_mem hcs)
                  exact msgCoreChunks_spec m L core hmem

/-- Witness for claim C5 at a concrete chunk list. -/
theorem claimC5_witness :
    ∃ core : String,
      ((0 = 0 ∧ "ab" = core) ∨ (1 ≤ 0 ∧ "ab" = chunkHeader "T" (0 + 1) ++ core)) ∧
      (core.length ≤ 10 ∨ '\n' ∉ core.data) :=
  claimC5_amended "ab" "T" 10 0 "ab" (by decide)

/-- Claim C6, counterexample: the claim states that a message longer
than the limit yields multiple chunks; but a single long line cannot
be split, so this over-limit message comes back as one chunk. -/
theorem claimC6_counterexample :
    3 < ("aaaa" : String).length ∧ _split_message_into_chunks "aaaa" "T" 3 = ["aaaa"] := by
  decide

/-- Claim C6 as amended: a message within the limit is returned
unchanged as the sole chunk; a longer message is split at line
boundaries only — the returned list is the header decoration of the
blank-free partition of the message's lines into consecutive non-empty
groups (every chunk after the first carries the bold part header of
its 1-based position followed by a blank line, as `addHeaders`
prescribes) — but may consist of a single chunk, for instance when the
message is one long line. -/
theorem claimC6_amended (m t : String) (L : Nat) :
    (m.length ≤ L → _split_message_into_chunks m t L = [m]) ∧
    (L < m.length →
      ∃ gs : List (List String), gs ≠ [] ∧ (∀ g ∈ gs, g ≠ []) ∧
        gs.flatten = pySplitNl m ∧
        _split_message_into_chunks m t L = addHeaders t (gs.map (pyJoin "\n"))) := by
  constructor
  · intro h
    unfold _split_message_into_chunks
    rw [if_pos h]
  · intro h
    refine ⟨packMsgLines m L, packMsgLines_ne_nil m L,
      fun g hg => genPack_mem_ne_nil _ _ _ _ _ _ _ g hg, packMsgLines_flatten m L, ?_⟩
    unfold _split_message_into_chunks
    rw [if_neg (by omega : ¬ m.length ≤ L)]
    rfl

/-- Witness for claim C6 at two concrete messages, one within and one
beyond its limit. -/
theorem claimC6_witness :
    _split_message_into_chunks "ab" "T" 10 = ["ab"] ∧
    (∃ gs : List (List String), gs ≠ [] ∧ (∀ g ∈ gs, g ≠ []) ∧
      gs.flatten = pySplitNl "aaaa\nb" ∧
      _split_message_into_chunks "aaaa\nb" "T" 5 = addHeaders "T" (gs.map (pyJoin "\n"))) :=
  ⟨(claimC6_amended "ab" "T" 10).1 (by decide),
   (claimC6_amended "aaaa\nb" "T" 5).2 (by decide)⟩

/-- Claim C7, counterexample: the claim states more than one
translation call for over-limit text and exactly one call for text
within the limit; but a single over-limit paragraph is flushed as one
chunk (one call), and empty text triggers no call at all. -/
theorem claimC7_counterexample :
    (3 < ("aaaa" : String).length ∧ tltCallCount "aaaa" 3 = 1) ∧
    tltCallCount "" 5 = 0 := by
  decide

/-- Claim C7 as amended: non-empty text within the limit is translated
in exactly one call; over-limit text is translated once per greedily
packed paragraph chunk — at least one call, and possibly exactly one,
for instance when the text has no blank-line separator — and the
result is the per-chunk translations rejoined with blank-line
separators in original order, so an identity translation capability
returns the input unchanged. -/
theorem claimC7_amended (text : String) (maxChunkSize : Nat) :
    (text ≠ "" → text.length ≤ maxChunkSize → tltCallCount text maxChunkSize = 1) ∧
    (maxChunkSize < text.length →
      1 ≤ tltCallCount text maxChunkSize ∧
      tltCallCount text maxChunkSize = (tltChunks text maxChunkSize).length) ∧
    translate_long_text (translate_to_english (fun s => TrOutcome.ok (some s)))
      text maxChunkSize = text := by
  refine ⟨?_, ?_, ?_⟩
  · intro h1 h2
    unfold tltCallCount translate_long_text_calls
    rw [if_neg h1, if_pos h2]
    rfl
  · intro h
    have h0 : ("" : String).length = 0 := rfl
    have h1 : text ≠ "" := by
      intro he
      rw [he] at h
      omega
    have h2 : ¬ text.length ≤ maxChunkSize := by omega
    unfold tltCallCount translate_long_text_calls
    rw [if_neg h1, if_neg h2]
    refine ⟨?_, rfl⟩
    cases hcn : tltChunks text maxChunkSize with
    | nil => exact absurd hcn (tltChunks_ne_nil text maxChunkSize)
    | cons a b => simp
  · rw [translate_long_text_congr _ (fun s => s) translate_to_english_id text maxChunkSize]
    exact tlt_identity text maxChunkSize

/-- Witness for claim C7 at concrete texts. -/
theorem claimC7_witness :
    tltCallCount "hi" 5 = 1 ∧
    (1 ≤ tltCallCount "aaaa" 3 ∧ tltCallCount "aaaa" 3 = (tltChunks "aaaa" 3).length) ∧
    translate_long_text (translate_to_english (fun s => TrOutcome.ok (some s)))
      "x\n\ny" 1 = "x\n\ny" :=
  ⟨(claimC7_amended "hi" 5).1 (by decide) (by decide),
   (claimC7_amended "aaaa" 3).2.1 (by decide),
   (claimC7_amended "x\n\ny" 1).2.2⟩

/-- Claim C8, counterexample: the claim states a date is returned
exactly when the text contains a valid day.month.year pattern; but the
parser only examines the first regex match — here the invalid
`32.1.20` — and returns nothing although the text contains the valid
pattern `1.1.20`. -/
theorem claimC8_counterexample :
    ¬ ((_extract_date_from_title "32.1.20 1.1.20").isSome = true ↔
        specContainsValidDate24 "32.1.20 1.1.20" = true) := by
  decide

/-- Claim C8 as amended: the parser accepts 2- to 4-digit years (not
only 2 or 4) and considers only the leftmost greedy regex match, so a
date is returned only when the text contains a day.month.year pattern
with 1-2 digit day and month and 2-4 digit year forming a valid
calendar date after the 2-digit-year adjustment, and text containing
no such digit pattern at all yields no date; an invalid first match
yields no date even when a later occurrence is valid. -/
theorem claimC8_amended (title : String) :
    ((_extract_date_from_title title).isSome = true →
      specContainsValidDate234 title = true) ∧
    (specHasPattern234 title = false → _extract_date_from_title title = none) := by
  constructor
  · intro h
    obtain ⟨d, m, y, hs, hv⟩ := extract_isSome_elim title h
    exact specScan_of_searchTriple true title.data d m y hs (fun _ => hv)
  · intro h
    by_cases h1 : title = ""
    · unfold _extract_date_from_title
      rw [if_pos h1]
    · cases hs : searchTriple title.data with
      | none => exact extract_eq_none_of_search title h1 hs
      | some r =>
          exfalso
          obtain ⟨d, m, y⟩ := r
          have hscan := specScan_of_searchTriple false title.data d m y hs
            (fun hx => Bool.noConfusion hx)
          unfold specHasPattern234 at h
          rw [hscan] at h
          cases h

/-- Witness for claim C8: one title whose date is parsed, one without
any pattern. -/
theorem claimC8_witness :
    specContainsValidDate234 "Ice News 22.02.2026" = true ∧
    _extract_date_from_title "No date here" = none :=
  ⟨(claimC8_amended "Ice News 22.02.2026").1 (by decide),
   (claimC8_amended "No date here").2 (by decide)⟩

/-- Claim C9: the accordion strategy's sort is descending by the date
parsed from each entry's header (absent dates acting as the minimum
date), it is a permutation of the input, it is stable (entries with
the same key keep their source order), and entries without a parsable
date end up after every dated entry. -/
theorem claimC9_sorted_stable (items : List Entry) :
    List.Pairwise entryGe (sortNewsItems items) ∧
    (sortNewsItems items).Perm items ∧
    (∀ k : PDate, (sortNewsItems items).filter (fun e => dateKey e == k) =
      items.filter (fun e => dateKey e == k)) ∧
    List.Pairwise (fun a b => _extract_date_from_title a.title = none →
      _extract_date_from_title b.title = none) (sortNewsItems items) := by
  refine ⟨List.sorted_insertionSort entryGe items, List.perm_insertionSort entryGe items,
    fun k => filter_sortNewsItems k items, ?_⟩
  exact List.Pairwise.imp (fun h ha => undated_of_ge_undated h ha)
    (List.sorted_insertionSort entryGe items)

/-- Claim C10: the delivery segmenter loses, duplicates and reorders
nothing — removing the continuation header from every chunk after the
first and joining all chunks with single newlines reconstructs the
original message exactly. -/
theorem claimC10_reassembly (m t : String) (L : Nat) :
    pyJoin "\n" (stripContinuations t (_split_message_into_chunks m t L)) = m := by
  unfold _split_message_into_chunks
  by_cases hlen : m.length ≤ L
  · rw [if_pos hlen]
    rfl
  · rw [if_neg hlen]
    cases hcore : msgCoreChunks m L with
    | nil =>
        exfalso
        unfold msgCoreChunks at hcore
        exact packMsgLines_ne_nil m L (List.map_eq_nil_iff.mp hcore)
    | cons c0 cs =>
        simp only [addHeaders, stripContinuations]
        rw [stripContFrom_addHeadersFrom]
        have hjoin := pyJoin_msgCoreChunks m L
        rw [hcore] at hjoin
        exact hjoin

end IceNews
